import Mathlib

/-!
Verification development for the fermentation library: a shallow embedding of
the forward-decay model (`src/lib.rs`, `src/decay.rs`), the basic and
sign-partitioned aggregators (`src/aggregate/basic.rs`, `src/aggregate/sign.rs`)
and the Space-Saving approximate counter (`src/space_saving.rs`).
Floating-point scalars are embedded as exact rationals; `Instant` timestamps
are embedded as rational (or integer) time points and ages.
-/

namespace Fermentation

/-- Embeds `Counter<E>` from `src/space_saving.rs` (lines 173-192): a tracked
element together with its accumulated count and error, scalars as `ℚ`. -/
structure Cnt (E : Type) where
  count : ℚ
  error : ℚ
  element : E
deriving DecidableEq

/-- Embeds `Counter::key` (space_saving.rs line 185): the `(count, error)`
pair, which is also exactly what `Counter`'s `PartialOrd`/`Ord` implementation
(lines 194-204) compares — the element is ignored by the ordering. -/
def Cnt.key {E : Type} (c : Cnt E) : ℚ × ℚ := (c.count, c.error)

/-- Embeds `Counter::guaranteed_count` (space_saving.rs lines 189-191):
`count - error`. -/
def gcQ {E : Type} (c : Cnt E) : ℚ := c.count - c.error

/-- Strict lexicographic order on `(count, error)` pairs: the order used by
`Counter`'s `Ord` implementation (space_saving.rs lines 194-204), which
compares the tuple `(count, error)` and does not look at the element. -/
def keyLtP (a b : ℚ × ℚ) : Prop := a.1 < b.1 ∨ (a.1 = b.1 ∧ a.2 < b.2)

instance : DecidablePred (fun p : (ℚ × ℚ) × (ℚ × ℚ) => keyLtP p.1 p.2) :=
  fun _ => by unfold keyLtP; infer_instance

instance (a b : ℚ × ℚ) : Decidable (keyLtP a b) := by unfold keyLtP; infer_instance

/-- Reflexive closure of `keyLtP`. -/
def keyLe (a b : ℚ × ℚ) : Prop := a = b ∨ keyLtP a b

/-- Embeds `BTreeSet<Counter<E>>::insert`: the set is represented as a list
sorted in ascending `(count, error)` order with pairwise distinct keys.
Because `Counter`'s `Ord` ignores the element, inserting a counter whose
`(count, error)` equals that of a resident entry leaves the set unchanged
(Rust's `BTreeSet::insert` does not replace an equal element). -/
def btInsert {E : Type} (c : Cnt E) : List (Cnt E) → List (Cnt E)
  | [] => [c]
  | h :: t =>
    if keyLtP c.key h.key then c :: h :: t
    else if c.key = h.key then h :: t
    else h :: btInsert c t

/-- Embeds `BTreeSet<Counter<E>>::remove` invoked with a counter whose
`(count, error)` key is `k` (space_saving.rs line 82): removes the unique
resident entry that is `Ord`-equal, i.e. has the same `(count, error)` key,
if any. -/
def btRemove {E : Type} (k : ℚ × ℚ) : List (Cnt E) → List (Cnt E)
  | [] => []
  | h :: t => if h.key = k then t else h :: btRemove k t

/-- Embeds `HashMap<E, Count>::get`/`.copied()`: first match in the
association list. -/
def mapLookup {E : Type} [DecidableEq E] : List (E × ℚ × ℚ) → E → Option (ℚ × ℚ)
  | [], _ => none
  | (k, v) :: t, e => if k = e then some v else mapLookup t e

/-- Embeds the map write in `hit` (space_saving.rs lines 90-94): overwrite the
entry for the element when present (`get_mut`), insert it otherwise. -/
def mapSet {E : Type} [DecidableEq E] : List (E × ℚ × ℚ) → E → ℚ × ℚ → List (E × ℚ × ℚ)
  | [], e, v => [(e, v)]
  | (k, kv) :: t, e, v => if k = e then (e, v) :: t else (k, kv) :: mapSet t e v

/-- Embeds `HashMap<E, Count>::remove` (space_saving.rs line 75). -/
def mapRemove {E : Type} [DecidableEq E] : List (E × ℚ × ℚ) → E → List (E × ℚ × ℚ)
  | [], _ => []
  | (k, kv) :: t, e => if k = e then t else (k, kv) :: mapRemove t e

/-- Embeds `BTreeSpaceSaving<E, G>` (space_saving.rs lines 16-22): capacity,
decayed hit total, the `elements` key-to-count map, and the `counts` rank set
(ascending `(count, error)` list). The decay model is kept outside the
structure: each operation receives the already-computed static weight or
factor, since those are the only uses of the decay model in `hit`,
`update_landmark`, `get` and `hits`. -/
structure SS (E : Type) where
  capacity : ℕ
  hits : ℚ
  elements : List (E × ℚ × ℚ)
  counts : List (Cnt E)
deriving DecidableEq

/-- Embeds `BTreeSpaceSaving::new` (space_saving.rs lines 51-59). -/
def SS.new (E : Type) (capacity : ℕ) : SS E :=
  { capacity := capacity, hits := 0, elements := [], counts := [] }

/-- Embeds `BTreeSpaceSaving::hit` (space_saving.rs lines 62-99) for a single
event whose static weight `g(age(now))` is `w`:
add `w` to the decayed hit total; if the element is tracked, remove its rank
entry by its old `(count, error)` key, add `w` to its count and re-insert;
if untracked at full capacity, pop the first (minimum) counter, drop that
victim's element from the map, and start the new counter from
`count = victim.count`, `error = victim.count` before adding `w`;
if untracked below capacity, start from `(0, 0)` and add `w`. -/
def SS.hit {E : Type} [DecidableEq E] (s : SS E) (e : E) (w : ℚ) : SS E :=
  match mapLookup s.elements e with
  | some k =>
    let counter : Cnt E := ⟨k.1 + w, k.2, e⟩
    { s with
      hits := s.hits + w
      elements := mapSet s.elements e (counter.count, counter.error)
      counts := btInsert counter (btRemove k s.counts) }
  | none =>
    if s.capacity ≤ s.counts.length then
      match s.counts with
      | [] =>
        let counter : Cnt E := ⟨w, 0, e⟩
        { s with
          hits := s.hits + w
          elements := mapSet s.elements e (counter.count, counter.error)
          counts := btInsert counter [] }
      | m :: rest =>
        let counter : Cnt E := ⟨m.count + w, m.count, e⟩
        { s with
          hits := s.hits + w
          elements := mapSet (mapRemove s.elements m.element) e (counter.count, counter.error)
          counts := btInsert counter rest }
    else
      let counter : Cnt E := ⟨w, 0, e⟩
      { s with
        hits := s.hits + w
        elements := mapSet s.elements e (counter.count, counter.error)
        counts := btInsert counter s.counts }

/-- Runs a sequence of `hit` operations; each stream event carries its element
and the static weight the decay model assigns to its arrival time. -/
def runHits {E : Type} [DecidableEq E] (s : SS E) (stream : List (E × ℚ)) : SS E :=
  stream.foldl (fun acc p => acc.hit p.1 p.2) s

/-- True decayed weight of a key: the sum of the static weights of the stream
events carrying that key. -/
def trueWeight {E : Type} [DecidableEq E] (stream : List (E × ℚ)) (e : E) : ℚ :=
  (stream.filter (fun p => p.1 = e)).foldl (fun a p => a + p.2) 0

/-- Embeds the while-loop of `BTreeSpaceSaving::top` (space_saving.rs lines
107-122) running over the counters in descending `(count, error)` order.
Returns the collected elements, the `order` flag, the running minimum of the
collected guaranteed counts (`none` standing for the initial `f64::INFINITY`),
and the part of the iterator left unconsumed. When the length bound is hit,
the loop has already pulled one extra counter from the iterator before
breaking, so that counter is consumed but neither collected nor compared. -/
def topGo {E : Type} : ℕ → List (Cnt E) → List E × Bool × Option ℚ × List (Cnt E)
  | _, [] => ([], true, none, [])
  | 0, _ :: rest => ([], true, none, rest)
  | k + 1, c :: rest =>
    let r := topGo k rest
    let ord1 : Bool :=
      match rest with
      | [] => true
      | next :: _ => decide (next.count ≤ gcQ c)
    (c.element :: r.1, ord1 && r.2.1,
     some (match r.2.2.1 with | none => gcQ c | some y => min (gcQ c) y),
     r.2.2.2)

/-- Embeds the guarantee check after the loop in `top` (space_saving.rs lines
104, 124-126): `guarantee` starts out `false` and is set to
`next.count <= min` only when the iterator still yields a further counter. -/
def topGuar {E : Type} : List (Cnt E) → Option ℚ → Bool
  | [], _ => false
  | _ :: _, none => true
  | next :: _, some y => decide (next.count ≤ y)

/-- Embeds `BTreeSpaceSaving::top` (space_saving.rs lines 101-133). The `Bool`
component is `true` exactly when the Rust function returns `Ok` (i.e.
`order && guarantee`). -/
def SS.top {E : Type} (s : SS E) (k : ℕ) : List E × Bool :=
  ((topGo k s.counts.reverse).1,
   (topGo k s.counts.reverse).2.1 &&
     topGuar (topGo k s.counts.reverse).2.2.2 (topGo k s.counts.reverse).2.2.1)

/-- Embeds the loop of `BTreeSpaceSaving::frequent` (space_saving.rs lines
140-148) over the counters in descending `(count, error)` order with threshold
`θ`: stop at the first counter whose count does not exceed `θ`; collect the
others, and keep the guarantee only while each collected counter's guaranteed
count is at least `θ`. -/
def freqGo {E : Type} (θ : ℚ) : List (Cnt E) → List E × Bool
  | [] => ([], true)
  | c :: rest =>
    if c.count ≤ θ then ([], true)
    else
      let r := freqGo θ rest
      (c.element :: r.1, decide (θ ≤ gcQ c) && r.2)

/-- Embeds the threshold computation `(phi * self.hits).ceil()` of `frequent`
(space_saving.rs line 136). -/
def thresholdQ (phi hits : ℚ) : ℚ := (⌈phi * hits⌉ : ℤ)

/-- Embeds `BTreeSpaceSaving::frequent` (space_saving.rs lines 135-155). The
`Bool` component is `true` exactly when the Rust function returns `Ok`. -/
def SS.frequent {E : Type} (s : SS E) (phi : ℚ) : List E × Bool :=
  freqGo (thresholdQ phi s.hits) s.counts.reverse

/-- Embeds `BTreeSpaceSaving::<E, Exponential>::update_landmark`
(space_saving.rs lines 28-41) with the already-computed rescale factor
`g(age of new landmark)`: the decayed hit total is divided by the factor and
the rank set is rebuilt by re-inserting every counter with count and error
divided by the factor. The `elements` map is left untouched, exactly as in the
source. -/
def SS.rescale {E : Type} (s : SS E) (factor : ℚ) : SS E :=
  { s with
    hits := s.hits / factor
    counts := s.counts.foldl
      (fun acc c => btInsert ⟨c.count / factor, c.error / factor, c.element⟩ acc) [] }

/-- Embeds `BTreeSpaceSaving::get` (space_saving.rs lines 157-162) with the
already-computed normalizing factor `g(age(timestamp))`: the tracked count and
error divided by that factor, or `none` for an untracked element. -/
def SS.get {E : Type} [DecidableEq E] (s : SS E) (e : E) (nf : ℚ) : Option (ℚ × ℚ) :=
  (mapLookup s.elements e).map (fun k => (k.1 / nf, k.2 / nf))

/-- Embeds `BTreeSpaceSaving::hits` (space_saving.rs lines 164-166) with the
already-computed normalizing factor. -/
def SS.hitsAt {E : Type} (s : SS E) (nf : ℚ) : ℚ := s.hits / nf

/-- Embeds `ForwardDecay::weight` from `src/decay.rs` (lines 71-85), the
`DecayFunction` implementation: weight `0` whenever the landmark is at or
after the query timestamp, and otherwise `g` of the item's landmark-relative
duration over `g` of the query time's landmark-relative duration.
`Instant::duration_since` saturates at zero for instants before the landmark,
embedded by `max _ 0`. -/
def decayWeight (g : ℚ → ℚ) (landmark t ti : ℚ) : ℚ :=
  if t ≤ landmark then 0
  else g (max (ti - landmark) 0) / g (max (t - landmark) 0)

/-- Embeds `ForwardDecay::weight` from `src/lib.rs` (lines 310-315):
`g(age(item)) / g(age(t))` with signed landmark-relative ages
(`Item::age`, lib.rs lines 27-32) and no early return. -/
def fdWeight (g : ℚ → ℚ) (landmark ti t : ℚ) : ℚ :=
  g (ti - landmark) / g (t - landmark)

/-- Embeds the value of an `f64` item value as routed by `SignAggregator`:
either an ordinary rational value (`num 0` standing for positive zero) or the
IEEE-754 negative zero, which is numerically zero but has its sign bit set. -/
inductive FVal : Type where
  | num (q : ℚ)
  | negZero
deriving DecidableEq

/-- Numeric value of an `FVal`; negative zero is numerically `0`. -/
def FVal.toQ : FVal → ℚ
  | num q => q
  | negZero => 0

/-- Embeds `f64::is_sign_positive`: `true` exactly when the sign bit is clear.
Negative zero has its sign bit set, so it is not sign-positive even though it
compares equal to `0.0`. -/
def FVal.isSignPositive : FVal → Bool
  | num q => decide (0 ≤ q)
  | negZero => false

/-- Embeds `BasicAggregator` (src/aggregate/basic.rs lines 73-79): the decay
model's landmark plus the scaled sum and count accumulators. The weighting
function is passed to each operation. -/
structure BasicAgg where
  landmark : ℚ
  sum : ℚ
  count : ℚ
deriving DecidableEq

/-- Embeds `BasicAggregator::update` (basic.rs lines 84-89): add the item's
static weight times its value to `sum` and the static weight to `count`,
where the static weight is `g(age(item))` (lib.rs lines 319-324). -/
def BasicAgg.update (g : ℚ → ℚ) (b : BasicAgg) (t v : ℚ) : BasicAgg :=
  { b with
    sum := b.sum + g (t - b.landmark) * v
    count := b.count + g (t - b.landmark) }

/-- Embeds `BasicAggregator::<Exponential, I>::update_landmark` (basic.rs
lines 102-108): move the landmark and divide both accumulators by
`g(new landmark's age relative to the old landmark)`. -/
def BasicAgg.updateLandmark (g : ℚ → ℚ) (b : BasicAgg) (newLandmark : ℚ) : BasicAgg :=
  { landmark := newLandmark
    sum := b.sum / g (newLandmark - b.landmark)
    count := b.count / g (newLandmark - b.landmark) }

/-- Embeds `BasicAggregator::sum` (basic.rs lines 125-127): the accumulator
over the normalizing factor `g(age(timestamp))`. -/
def BasicAgg.sumAt (g : ℚ → ℚ) (b : BasicAgg) (t : ℚ) : ℚ :=
  b.sum / g (t - b.landmark)

/-- Embeds `BasicAggregator::count` (basic.rs lines 133-135). -/
def BasicAgg.countAt (g : ℚ → ℚ) (b : BasicAgg) (t : ℚ) : ℚ :=
  b.count / g (t - b.landmark)

/-- Embeds `SignAggregator` (src/aggregate/sign.rs lines 93-97): independent
positive and negative `BasicAggregator`s. -/
structure SignAgg where
  positive : BasicAgg
  negative : BasicAgg
deriving DecidableEq

/-- Embeds `SignAggregator::update` (sign.rs lines 102-108): route the whole
item to the positive branch when `item.value().is_sign_positive()` holds and
to the negative branch otherwise. -/
def SignAgg.update (g : ℚ → ℚ) (s : SignAgg) (t : ℚ) (v : FVal) : SignAgg :=
  if v.isSignPositive then { s with positive := s.positive.update g t v.toQ }
  else { s with negative := s.negative.update g t v.toQ }

/-- Exponential weighting function `g(n) = exp(α·n)` with `α = ln 2`
(g.rs lines 54-58), i.e. `g(n) = 2^n`, at integer ages. -/
def gExp2 (n : ℤ) : ℚ := (2 : ℚ) ^ n

/-- Hit stream over keys `0..5` (playing a,b,c,d,e,f) in which every event has
static weight `1` (the no-decay weighting function `g(n) = 1`, g.rs lines
11-15). -/
def c1Stream : List (ℕ × ℚ) :=
  [(0,1), (1,1), (2,1), (2,1), (2,1), (3,1), (4,1), (4,1), (5,1), (0,1), (2,1)]

/-- Three distinct keys hit once each with static weight `1`. -/
def c8Stream : List (ℕ × ℚ) := [(0,1), (1,1), (2,1)]

/-- Claim C1: the Space-Saving bound `count − error ≤ true decayed weight ≤
count` fails on the code. With capacity 2 and the no-decay weighting function,
after the eleven hits of `c1Stream` the key `2` is tracked with
`count = 3, error = 2`, yet its true decayed weight (it was hit four times at
weight 1) is `4 > 3`. The root cause is that `Counter`'s `Ord` compares only
`(count, error)` and ignores the element, so `BTreeSet` operations conflate
tied counters of distinct keys. -/
theorem claim_C1_eval :
    mapLookup (runHits (SS.new ℕ 2) c1Stream).elements 2 = some (3, 2) ∧
    trueWeight c1Stream 2 = 4 ∧
    ¬ trueWeight c1Stream 2 ≤ 3 := by
  norm_num [c1Stream, trueWeight, runHits, SS.new, SS.hit, mapLookup, mapSet, mapRemove,
    btInsert, btRemove, keyLtP, Cnt.key, List.filter]

/-- Claim C8: with capacity 2, after hitting three distinct keys once each at
weight 1, the key-to-count map holds three keys (exceeding the capacity bound)
while the rank set holds a single counter, so the two structures do not
contain the same keys. The second and third insertions into the rank set are
silently dropped because the counters tie on `(count, error)` and `Counter`'s
`Ord` ignores the element. -/
theorem claim_C8_eval :
    (runHits (SS.new ℕ 2) c8Stream).elements.map Prod.fst = [0, 1, 2] ∧
    (runHits (SS.new ℕ 2) c8Stream).counts.map Cnt.element = [0] ∧
    (runHits (SS.new ℕ 2) c8Stream).capacity = 2 := by
  norm_num [c8Stream, runHits, SS.new, SS.hit, mapLookup, mapSet, mapRemove,
    btInsert, btRemove, keyLtP, Cnt.key]

/-- Claim C7: rescale invariance fails for `BTreeSpaceSaving` because
`update_landmark` divides the decayed hit total and the rank-set counters by
the factor but never touches the `elements` map that `get` reads. With
exponential decay `g(n) = 2^n`, one hit on key `0` at time 5 under landmark 0
followed by `update_landmark` to landmark 1 makes `get` report a count of
`1/16` at time 10, while a fresh run under landmark 1 reports `1/32`; the
`hits` query, whose accumulator is rescaled, agrees between the two runs. -/
theorem claim_C7_eval :
    (((SS.new ℕ 1).hit 0 (gExp2 (5 - 0))).rescale (gExp2 (1 - 0))).get 0 (gExp2 (10 - 1))
      = some (1/16, 0) ∧
    ((SS.new ℕ 1).hit 0 (gExp2 (5 - 1))).get 0 (gExp2 (10 - 1)) = some (1/32, 0) ∧
    ((1 : ℚ)/16, (0 : ℚ)) ≠ (1/32, 0) ∧
    (((SS.new ℕ 1).hit 0 (gExp2 (5 - 0))).rescale (gExp2 (1 - 0))).hitsAt (gExp2 (10 - 1))
      = ((SS.new ℕ 1).hit 0 (gExp2 (5 - 1))).hitsAt (gExp2 (10 - 1)) := by
  norm_num [gExp2, SS.new, SS.hit, SS.rescale, SS.get, SS.hitsAt, mapLookup, mapSet,
    mapRemove, btInsert, btRemove, keyLtP, Cnt.key]

/-- Claim C2 is false as stated: on eviction the new counter does not inherit
the victim's error. With capacity 1, after two hits on key `0` (victim counter
`(count 2, error 0)`), a hit on the untracked key `1` at weight 1 yields the
entry `(count 3, error 2)` — the error is the victim's count `2`, not the
victim's error `0` as the claim states. -/
theorem claim_C2_counterexample :
    ¬ (∀ (s : SS ℕ) (e : ℕ) (w : ℚ) (m : Cnt ℕ) (rest : List (Cnt ℕ)),
        s.counts = m :: rest →
        mapLookup s.elements e = none →
        s.capacity ≤ s.counts.length →
        mapLookup (s.hit e w).elements e = some (m.count + w, m.error)) := by
  intro h
  have h2 := h (runHits (SS.new ℕ 1) [(0,1), (0,1)]) 1 1 ⟨2, 0, 0⟩ []
    (by norm_num [runHits, SS.new, SS.hit, mapLookup, mapSet, mapRemove, btInsert,
      btRemove, keyLtP, Cnt.key])
    (by norm_num [runHits, SS.new, SS.hit, mapLookup, mapSet, mapRemove, btInsert,
      btRemove, keyLtP, Cnt.key])
    (by norm_num [runHits, SS.new, SS.hit, mapLookup, mapSet, mapRemove, btInsert,
      btRemove, keyLtP, Cnt.key])
  have h3 : mapLookup ((runHits (SS.new ℕ 1) [(0,1), (0,1)]).hit 1 1).elements 1
      = some (3, 2) := by
    norm_num [runHits, SS.new, SS.hit, mapLookup, mapSet, mapRemove, btInsert,
      btRemove, keyLtP, Cnt.key]
  rw [h3] at h2
  exact absurd h2 (by norm_num)

/-- Looking up the key just written by `mapSet` yields the written value. -/
theorem mapSet_lookup {E : Type} [DecidableEq E] :
    ∀ (l : List (E × ℚ × ℚ)) (e : E) (v : ℚ × ℚ), mapLookup (mapSet l e v) e = some v := by
  intro l e v
  induction l with
  | nil => simp [mapSet, mapLookup]
  | cons h t ih =>
    obtain ⟨k, kv⟩ := h
    by_cases hk : k = e <;> simp [mapSet, mapLookup, hk, ih]

/-- Claim C2 amended: when `hit(e)` is called for an untracked key while the
rank set is at capacity, the popped victim `m` is the minimum counter in
`(count, error)` order, and the new key's counter inherits the victim's count
both as count base and as error: afterwards the new entry is
`count = m.count + w` and `error = m.count` (the victim's count, not its
error), the victim's rank entry is gone, and the decayed total grew by `w`. -/
theorem claim_C2_amended {E : Type} [DecidableEq E] (s : SS E) (e : E) (w : ℚ)
    (m : Cnt E) (rest : List (Cnt E))
    (hm : s.counts = m :: rest)
    (he : mapLookup s.elements e = none)
    (hcap : s.capacity ≤ s.counts.length)
    (hsorted : List.Pairwise (fun a b => keyLtP a.key b.key) s.counts) :
    (∀ c ∈ s.counts, keyLe m.key c.key) ∧
    mapLookup (s.hit e w).elements e = some (m.count + w, m.count) ∧
    (s.hit e w).counts = btInsert ⟨m.count + w, m.count, e⟩ rest ∧
    (s.hit e w).hits = s.hits + w := by
  have hcap2 : s.capacity ≤ (m :: rest).length := hm ▸ hcap
  have hhit : s.hit e w =
      { s with
        hits := s.hits + w
        elements := mapSet (mapRemove s.elements m.element) e (m.count + w, m.count)
        counts := btInsert ⟨m.count + w, m.count, e⟩ rest } := by
    rw [SS.hit, he, hm]
    simp only [if_pos hcap2]
  refine ⟨?_, ?_, ?_, ?_⟩
  · intro c hc
    rw [hm] at hc hsorted
    rcases List.mem_cons.mp hc with h1 | h1
    · exact Or.inl (by rw [h1])
    · exact Or.inr ((List.pairwise_cons.mp hsorted).1 c h1)
  · rw [hhit]
    exact mapSet_lookup _ _ _
  · rw [hhit]
  · rw [hhit]

/-- Claim C2 amended, witnessed at the state reached by two weight-1 hits on
key `0` with capacity 1, followed by a hit on the untracked key `1`. -/
theorem claim_C2_witness :
    (runHits (SS.new ℕ 1) [(0,1), (0,1)]).counts = ⟨2, 0, 0⟩ :: [] ∧
    mapLookup (runHits (SS.new ℕ 1) [(0,1), (0,1)]).elements 1 = none ∧
    (runHits (SS.new ℕ 1) [(0,1), (0,1)]).capacity
      ≤ (runHits (SS.new ℕ 1) [(0,1), (0,1)]).counts.length ∧
    mapLookup ((runHits (SS.new ℕ 1) [(0,1), (0,1)]).hit 1 1).elements 1
      = some ((2 : ℚ) + 1, 2) := by
  have hm : (runHits (SS.new ℕ 1) [(0,1), (0,1)]).counts = ⟨2, 0, 0⟩ :: [] := by
    norm_num [runHits, SS.new, SS.hit, mapLookup, mapSet, mapRemove, btInsert,
      btRemove, keyLtP, Cnt.key]
  have he : mapLookup (runHits (SS.new ℕ 1) [(0,1), (0,1)]).elements 1 = none := by
    norm_num [runHits, SS.new, SS.hit, mapLookup, mapSet, mapRemove, btInsert,
      btRemove, keyLtP, Cnt.key]
  have hcap : (runHits (SS.new ℕ 1) [(0,1), (0,1)]).capacity
      ≤ (runHits (SS.new ℕ 1) [(0,1), (0,1)]).counts.length := by
    norm_num [runHits, SS.new, SS.hit, mapLookup, mapSet, mapRemove, btInsert,
      btRemove, keyLtP, Cnt.key]
  have hsorted : List.Pairwise (fun a b : Cnt ℕ => keyLtP a.key b.key)
      (runHits (SS.new ℕ 1) [(0,1), (0,1)]).counts := by
    rw [hm]
    simp
  exact ⟨hm, he, hcap,
    (claim_C2_amended (runHits (SS.new ℕ 1) [(0,1), (0,1)]) 1 1 ⟨2, 0, 0⟩ []
      hm he hcap hsorted).2.1⟩

/-- Claim C3 is false as stated: with a single tracked counter and `k = 1`,
both stated guarantee conditions hold vacuously (the single returned item's
guaranteed lower bounds are trivially non-increasing and there is no (k+1)-th
counter), yet `top` returns `Err` — its `guarantee` flag stays `false`
whenever the iterator is exhausted before the post-loop check. -/
theorem claim_C3_counterexample :
    ¬ (∀ (s : SS ℕ) (k : ℕ),
        (s.top k).2 = true ↔
          (List.Chain' (fun a b => gcQ b ≤ gcQ a) (s.counts.reverse.take k) ∧
           ∀ nx, (s.counts.reverse)[k]? = some nx →
             ∀ c ∈ s.counts.reverse.take k, nx.count ≤ gcQ c)) := by
  intro h
  have hnone : ((runHits (SS.new ℕ 2) [(0,1)]).counts.reverse)[1]? = none := by
    norm_num [runHits, SS.new, SS.hit, mapLookup, mapSet, mapRemove, btInsert,
      btRemove, keyLtP, Cnt.key]
  have hchain : List.Chain' (fun a b : Cnt ℕ => gcQ b ≤ gcQ a)
      ((runHits (SS.new ℕ 2) [(0,1)]).counts.reverse.take 1) := by
    norm_num [runHits, SS.new, SS.hit, mapLookup, mapSet, mapRemove, btInsert,
      btRemove, keyLtP, Cnt.key]
  have h2 := (h (runHits (SS.new ℕ 2) [(0,1)]) 1).mpr
    ⟨hchain, by intro nx hnx; rw [hnone] at hnx; exact Option.noConfusion hnx⟩
  have h3 : ((runHits (SS.new ℕ 2) [(0,1)]).top 1).2 = false := by
    norm_num [runHits, SS.new, SS.hit, SS.top, topGo, topGuar, mapLookup, mapSet,
      mapRemove, btInsert, btRemove, keyLtP, Cnt.key]
  rw [h3] at h2
  exact Bool.noConfusion h2

/-- Running minimum of guaranteed counts over a list of counters, `none` for
the empty list (standing for `f64::INFINITY`). -/
def mingc {E : Type} : List (Cnt E) → Option ℚ
  | [] => none
  | c :: t => some (match mingc t with | none => gcQ c | some y => min (gcQ c) y)

/-- The elements collected by the `top` loop are those of the first `k`
counters of the descending iteration. -/
theorem topGo_fst {E : Type} : ∀ (k : ℕ) (l : List (Cnt E)),
    (topGo k l).1 = (l.take k).map Cnt.element := by
  intro k l
  induction l generalizing k with
  | nil => cases k <;> simp [topGo]
  | cons c rest ih => cases k with
    | zero => simp [topGo]
    | succ k => simp [topGo, ih k]

/-- After the `top` loop breaks it has consumed one counter beyond the `k`
collected ones, so the iterator goes on at position `k + 1`. -/
theorem topGo_rest {E : Type} : ∀ (k : ℕ) (l : List (Cnt E)),
    (topGo k l).2.2.2 = l.drop (k + 1) := by
  intro k l
  induction l generalizing k with
  | nil => cases k <;> simp [topGo]
  | cons c rest ih => cases k with
    | zero => simp [topGo]
    | succ k => simp [topGo, ih k]

/-- The running minimum computed by the `top` loop is the minimum guaranteed
count among the collected counters. -/
theorem topGo_min {E : Type} : ∀ (k : ℕ) (l : List (Cnt E)),
    (topGo k l).2.2.1 = mingc (l.take k) := by
  intro k l
  induction l generalizing k with
  | nil => cases k <;> simp [topGo, mingc]
  | cons c rest ih => cases k with
    | zero => simp [topGo, mingc]
    | succ k => simp [topGo, mingc, ih k]

/-- The `order` flag of the `top` loop holds exactly when along the first
`k + 1` counters of the descending iteration, each successor's raw count is at
most its predecessor's guaranteed count. -/
theorem topGo_ord {E : Type} : ∀ (k : ℕ) (l : List (Cnt E)),
    ((topGo k l).2.1 = true ↔
      List.Chain' (fun a b => b.count ≤ gcQ a) (l.take (k + 1))) := by
  intro k l
  induction l generalizing k with
  | nil => cases k <;> simp [topGo]
  | cons c rest ih =>
    cases k with
    | zero => cases rest <;> simp [topGo]
    | succ k =>
      cases rest with
      | nil => simp [topGo]
      | cons n rt => simp [topGo, ih k, List.chain'_cons]

/-- A bound is below every guaranteed count in a list exactly when it is below
the list's minimum guaranteed count. -/
theorem mingc_char {E : Type} : ∀ (xs : List (Cnt E)) (x : ℚ),
    (∀ c ∈ xs, x ≤ gcQ c) ↔ (∀ y, mingc xs = some y → x ≤ y) := by
  intro xs x
  induction xs with
  | nil => simp [mingc]
  | cons c t ih =>
    cases h : mingc t with
    | none =>
      have ht : t = [] := by
        cases t with
        | nil => rfl
        | cons a b => simp [mingc] at h
      subst ht
      simp [mingc]
    | some y0 =>
      have ih2 : (∀ c' ∈ t, x ≤ gcQ c') ↔ x ≤ y0 := by rw [ih]; simp [h]
      simp [mingc, h, List.forall_mem_cons, ih2, le_min_iff, and_assoc]

/-- The empty list is the only one with no minimum guaranteed count. -/
theorem mingc_none {E : Type} : ∀ (xs : List (Cnt E)), mingc xs = none ↔ xs = [] := by
  intro xs
  cases xs with
  | nil => simp [mingc]
  | cons a b => simp [mingc]

/-- Claim C3 amended: `top(k)` returns the elements of the `k` highest-ranked
counters in descending `(count, error)` order, and the result is `Ok`
(guaranteed) iff (a) along the first `k + 1` counters of that order each
successor's raw count is at most its predecessor's guaranteed count
(`count − error`), and (b) a counter exists at descending position `k + 2`
(one past the counter the loop consumed when breaking) whose raw count is at
most the minimum guaranteed count of the returned `k`. In particular, with
`k + 1` or fewer tracked counters the result is always `Err`. -/
theorem claim_C3_amended {E : Type} (s : SS E) (k : ℕ) :
    (s.top k).1 = (s.counts.reverse.take k).map Cnt.element ∧
    ((s.top k).2 = true ↔
      (List.Chain' (fun a b => b.count ≤ gcQ a) (s.counts.reverse.take (k + 1)) ∧
       ∃ nx, (s.counts.reverse.drop (k + 1)).head? = some nx ∧
         ∀ c ∈ s.counts.reverse.take k, nx.count ≤ gcQ c)) := by
  constructor
  · exact topGo_fst k s.counts.reverse
  · show ((topGo k s.counts.reverse).2.1 &&
        topGuar (topGo k s.counts.reverse).2.2.2 (topGo k s.counts.reverse).2.2.1) = true ↔ _
    rw [topGo_rest, topGo_min, Bool.and_eq_true, topGo_ord]
    cases hd : s.counts.reverse.drop (k + 1) with
    | nil => simp [topGuar]
    | cons nx rt =>
      cases hm : mingc (s.counts.reverse.take k) with
      | none =>
        have htake : s.counts.reverse.take k = [] := (mingc_none _).mp hm
        simp [topGuar, htake]
      | some y =>
        have hiff : (∀ c ∈ s.counts.reverse.take k, nx.count ≤ gcQ c) ↔ nx.count ≤ y := by
          rw [mingc_char]
          simp [hm]
        simp [topGuar, hiff]

/-- Claim C4 is false as stated: guarantee does not require the returned
candidates' lower bounds to strictly exceed the threshold. With capacity 1,
hits on keys `0` then `1` at weight 1 leave the counter `(2, 1)` for key `1`
and a decayed total of `2`; for `phi = 1/2` the threshold is `1`, key `1` is
returned, and the code reports the result as guaranteed (it checks
`count − error ≥ threshold`, and `2 − 1 = 1 ≥ 1`) even though the guaranteed
lower bound `1` does not exceed the threshold `1`. -/
theorem claim_C4_counterexample :
    ¬ (∀ (s : SS ℕ) (phi : ℚ),
        (s.frequent phi).2 = true ↔
          ∀ c ∈ s.counts, c.element ∈ (s.frequent phi).1 →
            thresholdQ phi s.hits < gcQ c) := by
  intro h
  have h2 := (h (runHits (SS.new ℕ 1) [(0,1), (1,1)]) (1/2)).mp
    (by norm_num [runHits, SS.new, SS.hit, SS.frequent, freqGo, thresholdQ, gcQ,
      mapLookup, mapSet, mapRemove, btInsert, btRemove, keyLtP, Cnt.key])
  have h3 := h2 ⟨2, 1, 1⟩
    (by norm_num [runHits, SS.new, SS.hit, mapLookup, mapSet, mapRemove, btInsert,
      btRemove, keyLtP, Cnt.key])
    (by norm_num [runHits, SS.new, SS.hit, SS.frequent, freqGo, thresholdQ, gcQ,
      mapLookup, mapSet, mapRemove, btInsert, btRemove, keyLtP, Cnt.key])
  have h4 : thresholdQ (1/2) (runHits (SS.new ℕ 1) [(0,1), (1,1)]).hits = 1 := by
    norm_num [runHits, SS.new, SS.hit, thresholdQ, mapLookup, mapSet, mapRemove,
      btInsert, btRemove, keyLtP, Cnt.key]
  rw [h4] at h3
  exact absurd h3 (by norm_num [gcQ])

/-- The elements collected by the `frequent` loop are those of the longest
descending-order prefix of counters whose raw count exceeds the threshold. -/
theorem freqGo_fst {E : Type} (θ : ℚ) : ∀ l : List (Cnt E),
    (freqGo θ l).1 = (l.takeWhile (fun c => decide (θ < c.count))).map Cnt.element := by
  intro l
  induction l with
  | nil => simp [freqGo]
  | cons c rest ih =>
    by_cases h : c.count ≤ θ
    · have hn : ¬ θ < c.count := not_lt.mpr h
      simp [freqGo, h, List.takeWhile, hn]
    · simp [freqGo, h, List.takeWhile, not_le.mp h, ih]

/-- The `guaranteed` flag of the `frequent` loop holds exactly when every
collected counter's guaranteed count is at least the threshold. -/
theorem freqGo_snd {E : Type} (θ : ℚ) : ∀ l : List (Cnt E),
    ((freqGo θ l).2 = true ↔
      ∀ c ∈ l.takeWhile (fun c => decide (θ < c.count)), θ ≤ gcQ c) := by
  intro l
  induction l with
  | nil => simp [freqGo]
  | cons c rest ih =>
    by_cases h : c.count ≤ θ
    · have hn : ¬ θ < c.count := not_lt.mpr h
      simp [freqGo, h, List.takeWhile, hn]
    · simp [freqGo, h, List.takeWhile, not_le.mp h, ih]

/-- On a list that is descending in `(count, error)` order, cutting at the
first counter whose count is at or below the threshold loses nothing: the
prefix equals the filter. -/
theorem takeWhile_eq_filter_count {E : Type} (θ : ℚ) : ∀ l : List (Cnt E),
    List.Pairwise (fun a b => keyLtP b.key a.key) l →
    l.takeWhile (fun c => decide (θ < c.count)) = l.filter (fun c => decide (θ < c.count)) := by
  intro l
  induction l with
  | nil => simp
  | cons c rest ih =>
    intro hp
    obtain ⟨hall, ht⟩ := List.pairwise_cons.mp hp
    by_cases h : θ < c.count
    · simp [List.takeWhile, List.filter, h, ih ht]
    · have hrest : ∀ x ∈ rest, ¬ θ < x.count := by
        intro x hx
        have hk := hall x hx
        have hxc : x.count ≤ c.count := by
          rcases hk with h1 | ⟨h1, _⟩
          · exact le_of_lt h1
          · exact le_of_eq h1
        exact not_lt.mpr (le_trans hxc (not_lt.mp h))
      have hfil : rest.filter (fun c => decide (θ < c.count)) = [] := by
        rw [List.filter_eq_nil_iff]
        intro x hx
        simpa using hrest x hx
      simp [List.takeWhile, List.filter, h, hfil]

/-- Claim C4 amended: on a state whose rank set is sorted (as every reachable
state's is), `frequent(phi)` returns exactly the elements of the counters
whose raw count strictly exceeds `ceil(phi × decayed hit total)`, in
descending rank order, and the result is `Ok` (guaranteed) iff every returned
counter's guaranteed count is at least the threshold — at least, not strictly
above it as the claim stated. -/
theorem claim_C4_amended {E : Type} (s : SS E) (phi : ℚ)
    (hsorted : List.Pairwise (fun a b => keyLtP a.key b.key) s.counts) :
    (s.frequent phi).1 =
      ((s.counts.reverse.filter
        (fun c => decide (thresholdQ phi s.hits < c.count))).map Cnt.element) ∧
    ((s.frequent phi).2 = true ↔
      ∀ c ∈ s.counts.reverse.filter
        (fun c => decide (thresholdQ phi s.hits < c.count)),
        thresholdQ phi s.hits ≤ gcQ c) := by
  have hrev : List.Pairwise (fun a b => keyLtP b.key a.key) s.counts.reverse :=
    List.pairwise_reverse.mpr hsorted
  have htf := takeWhile_eq_filter_count (thresholdQ phi s.hits) s.counts.reverse hrev
  constructor
  · show (freqGo (thresholdQ phi s.hits) s.counts.reverse).1 = _
    rw [freqGo_fst, htf]
  · show (freqGo (thresholdQ phi s.hits) s.counts.reverse).2 = true ↔ _
    rw [freqGo_snd, htf]

/-- Claim C4 amended, witnessed at the state reached by one weight-1 hit on
key `0` with capacity 1 and `phi = 1/2`. -/
theorem claim_C4_witness :
    List.Pairwise (fun a b : Cnt ℕ => keyLtP a.key b.key)
      (runHits (SS.new ℕ 1) [(0,1)]).counts ∧
    (((runHits (SS.new ℕ 1) [(0,1)]).frequent (1/2)).2 = true ↔
      ∀ c ∈ (runHits (SS.new ℕ 1) [(0,1)]).counts.reverse.filter
        (fun c => decide (thresholdQ (1/2) (runHits (SS.new ℕ 1) [(0,1)]).hits < c.count)),
        thresholdQ (1/2) (runHits (SS.new ℕ 1) [(0,1)]).hits ≤ gcQ c) := by
  have hsorted : List.Pairwise (fun a b : Cnt ℕ => keyLtP a.key b.key)
      (runHits (SS.new ℕ 1) [(0,1)]).counts := by
    have hc : (runHits (SS.new ℕ 1) [(0,1)]).counts = [⟨1, 0, 0⟩] := by
      norm_num [runHits, SS.new, SS.hit, mapLookup, mapSet, mapRemove, btInsert,
        btRemove, keyLtP, Cnt.key]
    rw [hc]
    simp
  exact ⟨hsorted, (claim_C4_amended (runHits (SS.new ℕ 1) [(0,1)]) (1/2) hsorted).2⟩

/-- Claim C5: for every positive monotone non-decreasing weighting function,
whenever the item is no newer than the query time, the decayed weight
computed by the `DecayFunction` implementation of `ForwardDecay` lies in
`[0, 1]`, and it is `0` whenever the query time is at or before the
landmark. -/
theorem claim_C5_weight_bounds (g : ℚ → ℚ) (landmark t ti : ℚ)
    (hpos : ∀ x, 0 ≤ x → 0 < g x)
    (hmono : ∀ a b, 0 ≤ a → a ≤ b → g a ≤ g b)
    (hage : ti ≤ t) :
    0 ≤ decayWeight g landmark t ti ∧ decayWeight g landmark t ti ≤ 1 ∧
    (t ≤ landmark → decayWeight g landmark t ti = 0) := by
  unfold decayWeight
  by_cases h : t ≤ landmark
  · simp [h]
  · rw [if_neg h]
    have hdt : (0 : ℚ) ≤ t - landmark := by
      have := not_le.mp h
      linarith
    have hdle : max (ti - landmark) 0 ≤ max (t - landmark) 0 :=
      max_le_max (by linarith) le_rfl
    have hdi0 : (0 : ℚ) ≤ max (ti - landmark) 0 := le_max_right _ _
    have hgt : 0 < g (max (t - landmark) 0) := hpos _ (le_max_right _ _)
    have hgi : 0 < g (max (ti - landmark) 0) := hpos _ hdi0
    refine ⟨le_of_lt (div_pos hgi hgt), ?_, fun hc => absurd hc h⟩
    rw [div_le_one hgt]
    exact hmono _ _ hdi0 hdle

/-- Claim C5, witnessed with the no-decay weighting function at landmark 0,
item time 3 and query time 5. -/
theorem claim_C5_witness :
    ((3 : ℚ) ≤ 5) ∧ 0 ≤ decayWeight (fun _ => 1) 0 5 3 ∧
    decayWeight (fun _ => 1) 0 5 3 ≤ 1 := by
  have h := claim_C5_weight_bounds (fun _ => (1 : ℚ)) 0 5 3
    (fun _ _ => one_pos) (fun _ _ _ _ => le_refl 1) (by norm_num)
  exact ⟨by norm_num, h.1, h.2.1⟩

/-- Piecewise weighting function: constantly 1 on negative ages and `n + 1`
from age 0 on; globally positive and monotone non-decreasing. -/
def g6 (n : ℚ) : ℚ := if n < 0 then 1 else n + 1

/-- Claim C6 is false as stated: the claimed monotonicity direction is
backwards. Forward decay assigns the older item the smaller weight: with
`g = g6` at landmark 0, items aged 3 and 5 and query age 10, the weights are
`4/11` and `6/11`, so the older item's weight is strictly below the newer
item's, contradicting the claimed `weight(i,t) ≥ weight(j,t)`. -/
theorem claim_C6_counterexample :
    ¬ (∀ (g : ℚ → ℚ), (∀ x, 0 < g x) → (∀ a b, a ≤ b → g a ≤ g b) →
        ∀ (landmark ti tj t : ℚ), ti - landmark ≤ tj - landmark →
          tj - landmark ≤ t - landmark →
          fdWeight g landmark tj t ≤ fdWeight g landmark ti t) := by
  intro h
  have hpos : ∀ x : ℚ, 0 < g6 x := by
    intro x
    unfold g6
    by_cases hx : x < 0
    · simp [hx]
    · rw [if_neg hx]
      push_neg at hx
      linarith
  have hmono : ∀ a b : ℚ, a ≤ b → g6 a ≤ g6 b := by
    intro a b hab
    unfold g6
    by_cases ha : a < 0 <;> by_cases hb : b < 0
    · simp [ha, hb]
    · rw [if_pos ha, if_neg hb]
      push_neg at hb
      linarith
    · exact absurd (lt_of_le_of_lt hab hb) ha
    · rw [if_neg ha, if_neg hb]
      linarith
  have h2 := h g6 hpos hmono 0 3 5 10 (by norm_num) (by norm_num)
  have e1 : fdWeight g6 0 3 10 = 4 / 11 := by norm_num [fdWeight, g6]
  have e2 : fdWeight g6 0 5 10 = 6 / 11 := by norm_num [fdWeight, g6]
  rw [e1, e2] at h2
  norm_num at h2

/-- Claim C6 amended: for a positive monotone non-decreasing weighting
function and items with `age(i) ≤ age(j) ≤ age(t)`, the `ForwardDecay::weight`
of lib.rs satisfies `weight(i,t) ≤ weight(j,t)` — the older item never
outweighs the newer one. -/
theorem claim_C6_amended (g : ℚ → ℚ) (landmark ti tj t : ℚ)
    (hpos : ∀ x, 0 < g x) (hmono : ∀ a b, a ≤ b → g a ≤ g b)
    (hij : ti - landmark ≤ tj - landmark) (hjt : tj - landmark ≤ t - landmark) :
    fdWeight g landmark ti t ≤ fdWeight g landmark tj t := by
  unfold fdWeight
  have hgt : 0 < g (t - landmark) := hpos _
  exact (div_le_div_iff_of_pos_right hgt).mpr (hmono _ _ hij)

/-- Claim C6 amended, witnessed with the no-decay weighting function at
landmark 0, item ages 3 and 5 and query age 10. -/
theorem claim_C6_witness :
    ((3 : ℚ) - 0 ≤ 5 - 0) ∧ ((5 : ℚ) - 0 ≤ 10 - 0) ∧
    fdWeight (fun _ => 1) 0 3 10 ≤ fdWeight (fun _ => 1) 0 5 10 :=
  ⟨by norm_num, by norm_num,
    claim_C6_amended (fun _ => 1) 0 3 5 10 (fun _ => one_pos)
      (fun _ _ _ => le_refl 1) (by norm_num) (by norm_num)⟩

/-- Claim C9 is false as stated: an item carrying IEEE-754 negative zero
satisfies `value ≥ 0` but is routed to the negative branch, because the code
tests `is_sign_positive`, which is `false` for negative zero. At the zeroed
aggregator with `g = 1` and item time 1, updating with negative zero leaves
the positive branch untouched and bumps the negative branch's count to 1. -/
theorem claim_C9_counterexample :
    ¬ (∀ (g : ℚ → ℚ) (s : SignAgg) (t : ℚ) (v : FVal),
        (0 ≤ v.toQ →
          (SignAgg.update g s t v).positive = s.positive.update g t v.toQ ∧
          (SignAgg.update g s t v).negative = s.negative) ∧
        (¬ 0 ≤ v.toQ →
          (SignAgg.update g s t v).negative = s.negative.update g t v.toQ ∧
          (SignAgg.update g s t v).positive = s.positive)) := by
  intro h
  have h2 := (h (fun _ => 1) ⟨⟨0, 0, 0⟩, ⟨0, 0, 0⟩⟩ 1 FVal.negZero).1
    (by norm_num [FVal.toQ])
  have h3 : (SignAgg.update (fun _ => 1) ⟨⟨0, 0, 0⟩, ⟨0, 0, 0⟩⟩ 1 FVal.negZero).negative
      = ⟨0, 0, 1⟩ := by
    norm_num [SignAgg.update, FVal.isSignPositive, BasicAgg.update, FVal.toQ]
  have h4 := h2.2
  rw [h3] at h4
  have h5 : ((⟨0, 0, 1⟩ : BasicAgg) : BasicAgg) ≠ ⟨0, 0, 0⟩ := by
    simp
  exact h5 h4

/-- Claim C9 amended: `SignAggregator::update` routes by the sign bit of the
item's value: a sign-positive value (`> 0`, or positive zero) updates the
positive branch and leaves the negative branch unchanged, while a
sign-negative value (`< 0`, or negative zero) updates the negative branch and
leaves the positive branch unchanged. -/
theorem claim_C9_amended (g : ℚ → ℚ) (s : SignAgg) (t : ℚ) (v : FVal) :
    (v.isSignPositive = true →
      (SignAgg.update g s t v).positive = s.positive.update g t v.toQ ∧
      (SignAgg.update g s t v).negative = s.negative) ∧
    (v.isSignPositive = false →
      (SignAgg.update g s t v).negative = s.negative.update g t v.toQ ∧
      (SignAgg.update g s t v).positive = s.positive) := by
  cases hv : v.isSignPositive <;> simp [SignAgg.update, hv]

/-- Claim C9 amended, witnessed at negative zero on the zeroed aggregator. -/
theorem claim_C9_witness :
    FVal.negZero.isSignPositive = false ∧
    (SignAgg.update (fun _ => 1) ⟨⟨0, 0, 0⟩, ⟨0, 0, 0⟩⟩ 1 FVal.negZero).negative
      = BasicAgg.update (fun _ => 1) ⟨0, 0, 0⟩ 1 FVal.negZero.toQ :=
  ⟨rfl,
    ((claim_C9_amended (fun _ => 1) ⟨⟨0, 0, 0⟩, ⟨0, 0, 0⟩⟩ 1 FVal.negZero).2 rfl).1⟩

end Fermentation
